import Mathlib

/-!
Shallow embedding of `src/js/utils/range.ts` from prosemirror-noting.

Ranges carry two JS numbers; positions are modelled as `Int`.
`Array.prototype.findIndex` is modelled by `findIndexList`, which returns
`Option Nat` (`none` stands for the JS `-1` result).  The source
`diffRanges` is recursive and does not terminate on every input (when the
second set contains a malformed range the recursive remainder need not
advance), so it is embedded with an explicit fuel parameter consumed once
per recursive split; claims are stated so that the fuel choice is
irrelevant (enough fuel for the concrete input, or quantified over fuel).

JS strings are modelled as `List Char`, with `String.prototype.slice`
including its index clamping reproduced by `jsSlice`.  The `Transaction`
values consumed by `mapRangeThroughTransactions` are modelled by the two
features the code reads: the `time` stamp and the position-mapping
function `tr.mapping.map`.
-/

namespace Noting

/-- `Range` from `interfaces/Validation`: `{ from: number, to: number }`. -/
structure Range where
  «from» : Int
  «to» : Int
deriving DecidableEq, Repr

/-- The overlap test inside `findOverlappingRangeIndex`; the three
disjuncts are, in source order, "overlaps to the left of the range",
"overlaps within the range", "overlaps to the right of the range". -/
def overlaps (localRange range : Range) : Bool :=
  decide ((localRange.from ≤ range.from ∧ localRange.to ≥ range.from) ∨
    (localRange.to ≥ range.to ∧ localRange.from ≤ range.to) ∨
    (localRange.from ≥ range.from ∧ localRange.to ≤ range.to))

/-- JS `Array.prototype.findIndex`: index of the first element satisfying
`p`, or `none` (for `-1`). -/
def findIndexList {α : Type} (p : α → Bool) : List α → Option Nat
  | [] => none
  | x :: xs => if p x then some 0 else (findIndexList p xs).map (· + 1)

/-- `findOverlappingRangeIndex(range, ranges)` from `utils/range.ts`. -/
def findOverlappingRangeIndex (range : Range) (ranges : List Range) : Option Nat :=
  findIndexList (fun localRange => overlaps localRange range) ranges

/-- `mergeRange(range1, range2)` from `utils/range.ts`. -/
def mergeRange (range1 range2 : Range) : Range :=
  ⟨if range1.from < range2.from then range1.from else range2.from,
   if range1.to > range2.to then range1.to else range2.to⟩

/-- One step of the `reduce` inside `mergeRanges`: append the incoming
range when it overlaps nothing in the accumulator, otherwise splice the
pairwise merge over the overlapped entry (`splice(index, 1, ...)`). -/
def mergeStep (acc : List Range) (range : Range) : List Range :=
  match findOverlappingRangeIndex range acc with
  | none => acc ++ [range]
  | some index => acc.set index (mergeRange range (acc.getD index ⟨0, 0⟩))

/-- `mergeRanges(ranges)` from `utils/range.ts`. -/
def mergeRanges (ranges : List Range) : List Range :=
  ranges.foldl mergeStep []

/-- One step of the `reduce` inside `diffRanges`.  `inner` is the
recursive call `diffRanges([{from: overlappingRange.to + 1, to:
range.to}], secondRangesMerged)`, abstracted so the fuelled recursion can
instantiate it.  Note the source: the left remainder
`firstShortenedRange` is checked against emptiness only in the
complete-overlap branch ("ranges of 0 aren't valid"); the partial-overlap
branch concatenates it unconditionally. -/
def diffStep (inner : Range → List Range) (secondRangesMerged : List Range)
    (acc : List Range) (range : Range) : List Range :=
  match findOverlappingRangeIndex range secondRangesMerged with
  | none => acc ++ [range]
  | some overlap =>
    let overlappingRange := secondRangesMerged.getD overlap ⟨0, 0⟩
    let firstShortenedRange : Range := ⟨range.from, overlappingRange.from⟩
    if overlappingRange.to ≥ range.to then
      if firstShortenedRange.from = firstShortenedRange.to then acc
      else acc ++ [firstShortenedRange]
    else
      acc ++ [firstShortenedRange] ++ inner ⟨overlappingRange.to + 1, range.to⟩

/-- `diffRanges(firstRanges, secondRanges)` from `utils/range.ts`, with a
fuel parameter bounding the recursive splitting depth (at fuel 0 a split
that the source would recurse on yields `[]`; all theorems below are
insensitive to this cutoff). -/
def diffRanges : Nat → List Range → List Range → List Range
  | 0, firstRanges, secondRanges =>
    let secondRangesMerged := mergeRanges secondRanges
    (mergeRanges firstRanges).foldl (diffStep (fun _ => []) secondRangesMerged) []
  | fuel + 1, firstRanges, secondRanges =>
    let secondRangesMerged := mergeRanges secondRanges
    (mergeRanges firstRanges).foldl
      (diffStep (fun newRange => diffRanges fuel [newRange] secondRangesMerged)
        secondRangesMerged) []

/-- `ValidationInput` from `interfaces/Validation`: a range plus the text
it covers (the generic payload fields carried by `Object.assign` are not
modelled; the code never reads them). -/
structure ValidationInput where
  «from» : Int
  «to» : Int
  str : List Char
deriving DecidableEq, Repr

/-- `validationInputToRange(vi)` from `utils/range.ts`. -/
def validationInputToRange (vi : ValidationInput) : Range :=
  ⟨vi.from, vi.from + vi.str.length⟩

/-- One end index of `String.prototype.slice`: negative indices count
from the end of the string, and both are clamped into `[0, length]`. -/
def jsSliceIndex (len : Nat) (i : Int) : Nat :=
  if i < 0 then ((len : Int) + i).toNat else min i.toNat len

/-- `String.prototype.slice(start, finish)` on a JS string. -/
def jsSlice (s : List Char) (start finish : Int) : List Char :=
  (s.take (jsSliceIndex s.length finish)).drop (jsSliceIndex s.length start)

/-- One step of the `reduce` inside `getValRangesFromRange`: keep the
record when its span contains `range.from`, slicing its text with the
one-character lookback (`from > 0 ? from - 1 : 0`); drop the record when
the slice is empty (JS falsiness of `""`). -/
def getValStep (range : Range) (acc : List ValidationInput) (vi : ValidationInput) :
    List ValidationInput :=
  if range.from ≥ vi.from ∧ range.from ≤ vi.from + (vi.str.length : Int) then
    let f := range.from - vi.from
    let t := range.from - vi.from + (range.to - range.from)
    let str := jsSlice vi.str (if f > 0 then f - 1 else 0) t
    if str = [] then acc
    else acc ++ [{ vi with «from» := range.from, «to» := range.to, str := str }]
  else acc

/-- `getValRangesFromRange(range, valRanges)` from `utils/range.ts`. -/
def getValRangesFromRange (range : Range) (valRanges : List ValidationInput) :
    List ValidationInput :=
  valRanges.foldl (getValStep range) []

/-- `diffValidationInputs(firstValInputs, secondValInputs)` from
`utils/range.ts` (`flatMap` there is lodash `flatten`, a one-level
flatten of the mapped array). -/
def diffValidationInputs (fuel : Nat)
    (firstValInputs secondValInputs : List ValidationInput) : List ValidationInput :=
  (((diffRanges fuel (firstValInputs.map validationInputToRange)
      (secondValInputs.map validationInputToRange)).map
    (fun range => getValRangesFromRange range firstValInputs))).flatten

/-- The slice of a prosemirror `Transaction` that
`mapRangeThroughTransactions` reads: its `time` stamp and the position
mapping `tr.mapping.map`. -/
structure Transaction where
  time : Int
  mapping : Int → Int

/-- `mapRangeThroughTransactions(ranges, time, trs)` from
`utils/range.ts`, as the list of values it returns: `compact` removes the
`undefined` entries produced for ranges whose reference `time` is absent
from the log, hence `List.filterMap`. -/
def mapRangeThroughTransactions (ranges : List Range) (time : Int)
    (trs : List Transaction) : List Range :=
  ranges.filterMap (fun range =>
    let initialTransactionIndex := findIndexList (fun tr => tr.time == time) trs
    if trs.length = 1 then some range
    else
      match initialTransactionIndex with
      | none => none
      | some i =>
        some ((trs.drop i).foldl
          (fun acc tr => ⟨tr.mapping acc.from, tr.mapping acc.to⟩) range))

/-- The field values an input range object holds after
`mapRangeThroughTransactions` returns: the source's
`Object.assign(range, {...})` writes the reduced `from`/`to` back into
the caller's range object in place, while the two early returns
(single-entry log, unmatched `time`) leave the object untouched.  This
definition makes that heap effect explicit for one input range. -/
def mapRangeThroughTransactionsPost (range : Range) (time : Int)
    (trs : List Transaction) : Range :=
  let initialTransactionIndex := findIndexList (fun tr => tr.time == time) trs
  if trs.length = 1 then range
  else
    match initialTransactionIndex with
    | none => range
    | some i =>
      (trs.drop i).foldl (fun acc tr => ⟨tr.mapping acc.from, tr.mapping acc.to⟩) range

-- Sanity checks against the worked examples in the repository's spec.
example : mergeRanges [⟨0, 5⟩, ⟨4, 10⟩, ⟨20, 25⟩] = [⟨0, 10⟩, ⟨20, 25⟩] := by decide
example : diffRanges 9 [⟨0, 10⟩] [⟨3, 6⟩] = [⟨0, 3⟩, ⟨7, 10⟩] := by decide
example :
    diffValidationInputs 9 [⟨0, 10, "helloworld".toList⟩] [⟨3, 6, "lo".toList⟩] =
      [⟨0, 3, "hel".toList⟩, ⟨6, 10, "world".toList⟩] := by decide

/-! ## Helper lemmas (shared) -/

theorem findIndexList_eq_none {α : Type} {p : α → Bool} {l : List α}
    (h : ∀ x ∈ l, p x = false) : findIndexList p l = none := by
  induction l with
  | nil => rfl
  | cons x xs ih =>
    simp only [findIndexList, h x (List.mem_cons_self x xs),
      ih (fun y hy => h y (List.mem_cons_of_mem x hy)), Bool.false_eq_true,
      if_false, Option.map_none']

/-! ## Claims about the Transaction Range Mapper -/

/-- C9: with a single-record edit log, `mapRangeThroughTransactions`
returns all ranges unchanged, whatever the `time` argument (the
single-entry shortcut fires before the time lookup is consulted). -/
theorem mapRangeThroughTransactions_single (ranges : List Range) (time : Int)
    (trs : List Transaction) (h : trs.length = 1) :
    mapRangeThroughTransactions ranges time trs = ranges := by
  simp [mapRangeThroughTransactions, h]

/-- C9 witness: a one-record log whose time does not even match. -/
theorem mapRangeThroughTransactions_single_witness :
    ([⟨0, fun n => n⟩] : List Transaction).length = 1 ∧
      mapRangeThroughTransactions [⟨1, 2⟩] 7 [⟨0, fun n => n⟩] = [⟨1, 2⟩] :=
  ⟨rfl, mapRangeThroughTransactions_single _ _ _ rfl⟩

/-- C10: with an empty edit log, `mapRangeThroughTransactions` drops every
range: the single-record shortcut does not apply and `findIndex` cannot
match, so every element maps to `undefined` and `compact` removes it. -/
theorem mapRangeThroughTransactions_empty_log (ranges : List Range) (time : Int) :
    mapRangeThroughTransactions ranges time [] = [] := by
  simp [mapRangeThroughTransactions, findIndexList]

/-- C8 counterexample: a single-record log with an unmatched time does NOT
omit the range — the single-entry shortcut returns it unchanged — so "an
unmatched time omits the range" is false as stated for every log. -/
theorem mapRangeThroughTransactions_unmatched_single_kept :
    mapRangeThroughTransactions [⟨0, 1⟩] 5 [⟨99, fun n => n⟩] = [⟨0, 1⟩] ∧
      (∀ tr ∈ ([⟨99, fun n => n⟩] : List Transaction), tr.time ≠ 5) ∧
      ([⟨0, 1⟩] : List Range) ≠ [] :=
  ⟨rfl, by decide, by decide⟩

/-- C8 (amended): when the log does not consist of exactly one record and
no record's time matches, every range is omitted, so the output is empty
(input length minus the omitted count). -/
theorem mapRangeThroughTransactions_unmatched (ranges : List Range) (time : Int)
    (trs : List Transaction) (h1 : trs.length ≠ 1)
    (h2 : ∀ tr ∈ trs, tr.time ≠ time) :
    mapRangeThroughTransactions ranges time trs = [] := by
  have hnone : findIndexList (fun tr => tr.time == time) trs = none :=
    findIndexList_eq_none (fun tr htr => by simpa using h2 tr htr)
  simp [mapRangeThroughTransactions, hnone, h1]

/-- C8 witness: a two-record log, neither record matching time 5. -/
theorem mapRangeThroughTransactions_unmatched_witness :
    ([⟨1, fun n => n⟩, ⟨2, fun n => n⟩] : List Transaction).length ≠ 1 ∧
      mapRangeThroughTransactions [⟨0, 1⟩] 5 [⟨1, fun n => n⟩, ⟨2, fun n => n⟩] = [] :=
  ⟨by decide, mapRangeThroughTransactions_unmatched _ _ _ (by decide) (by decide)⟩

/-- C5 counterexample: `Object.assign(range, ...)` writes the mapped
positions back into the caller's range object, so after the call the
input range `{from: 0, to: 1}` holds `{from: 2, to: 3}` — the core does
mutate an input range in place. -/
theorem mapRangeThroughTransactionsPost_mutates :
    mapRangeThroughTransactionsPost ⟨0, 1⟩ 1 [⟨1, fun n => n + 2⟩, ⟨2, fun n => n⟩] =
      ⟨2, 3⟩ ∧ (⟨2, 3⟩ : Range) ≠ ⟨0, 1⟩ :=
  ⟨rfl, by decide⟩

/-- C5 (amended): an input range object is guaranteed to keep its original
`from`/`to` after `mapRangeThroughTransactions` only in the two early-out
cases — a single-record log, or no record matching `time`; otherwise the
call overwrites the object with the mapped values. -/
theorem mapRangeThroughTransactionsPost_unchanged (range : Range) (time : Int)
    (trs : List Transaction)
    (h : trs.length = 1 ∨ ∀ tr ∈ trs, tr.time ≠ time) :
    mapRangeThroughTransactionsPost range time trs = range := by
  rcases h with h | h
  · simp [mapRangeThroughTransactionsPost, h]
  · have hnone : findIndexList (fun tr => tr.time == time) trs = none :=
      findIndexList_eq_none (fun tr htr => by simpa using h tr htr)
    by_cases h1 : trs.length = 1
    · simp [mapRangeThroughTransactionsPost, h1]
    · simp [mapRangeThroughTransactionsPost, h1, hnone]

/-- C5 witness: a single-record log whose time matches; the shortcut still
leaves the object untouched. -/
theorem mapRangeThroughTransactionsPost_unchanged_witness :
    (([⟨3, fun n => n + 100⟩] : List Transaction).length = 1 ∨
        ∀ tr ∈ ([⟨3, fun n => n + 100⟩] : List Transaction), tr.time ≠ 3) ∧
      mapRangeThroughTransactionsPost ⟨0, 1⟩ 3 [⟨3, fun n => n + 100⟩] = ⟨0, 1⟩ :=
  ⟨Or.inl rfl, mapRangeThroughTransactionsPost_unchanged _ _ _ (Or.inl rfl)⟩

/-! ## Claims about the Validation-Input Projector -/

theorem jsSlice_length (s : List Char) (start finish : Int)
    (h0 : 0 ≤ start) (h1 : start ≤ finish) (h2 : finish ≤ (s.length : Int)) :
    ((jsSlice s start finish).length : Int) = finish - start := by
  simp only [jsSlice, jsSliceIndex, List.length_drop, List.length_take]
  rw [if_neg (by omega : ¬start < 0), if_neg (by omega : ¬finish < 0)]
  omega

/-- The length relation a record emitted by one `getValRangesFromRange`
step satisfies: exactly `to - from` characters when the range starts at
the record's start, and one extra lookback character otherwise. -/
def LengthLaw (out : ValidationInput) : Prop :=
  out.to - out.from = (out.str.length : Int) ∨
    out.to - out.from + 1 = (out.str.length : Int)

theorem getValStep_lengthLaw (range : Range) (vi : ValidationInput)
    (acc : List ValidationInput) (h1 : range.from ≤ range.to)
    (h2 : range.from ≥ vi.from → range.from ≤ vi.from + (vi.str.length : Int) →
      range.to ≤ vi.from + (vi.str.length : Int))
    (hacc : ∀ out ∈ acc, LengthLaw out) :
    ∀ out ∈ getValStep range acc vi, LengthLaw out := by
  intro out hout
  unfold getValStep at hout
  by_cases hc : range.from ≥ vi.from ∧ range.from ≤ vi.from + (vi.str.length : Int)
  · have hfit : range.to ≤ vi.from + (vi.str.length : Int) := h2 hc.1 hc.2
    rw [if_pos hc] at hout
    simp only at hout
    by_cases hf : range.from - vi.from > 0
    · rw [if_pos hf] at hout
      have hlen := jsSlice_length vi.str (range.from - vi.from - 1)
        (range.from - vi.from + (range.to - range.from))
        (by omega) (by omega) (by omega)
      split at hout
      · exact hacc out hout
      · rcases List.mem_append.mp hout with h | h
        · exact hacc out h
        · rw [List.mem_singleton] at h
          subst h
          unfold LengthLaw
          dsimp only
          omega
    · rw [if_neg hf] at hout
      have hlen := jsSlice_length vi.str 0
        (range.from - vi.from + (range.to - range.from))
        (by omega) (by omega) (by omega)
      split at hout
      · exact hacc out hout
      · rcases List.mem_append.mp hout with h | h
        · exact hacc out h
        · rw [List.mem_singleton] at h
          subst h
          unfold LengthLaw
          dsimp only
          omega
  · rw [if_neg hc] at hout
    exact hacc out hout

theorem foldl_getValStep_lengthLaw (range : Range) (h1 : range.from ≤ range.to) :
    ∀ (l acc : List ValidationInput),
      (∀ vi ∈ l, range.from ≥ vi.from →
        range.from ≤ vi.from + (vi.str.length : Int) →
        range.to ≤ vi.from + (vi.str.length : Int)) →
      (∀ out ∈ acc, LengthLaw out) →
      ∀ out ∈ l.foldl (getValStep range) acc, LengthLaw out := by
  intro l
  induction l with
  | nil => intro acc _ hacc; simpa using hacc
  | cons vi rest ih =>
    intro acc hfit hacc
    simp only [List.foldl_cons]
    exact ih (getValStep range acc vi)
      (fun v hv => hfit v (List.mem_cons_of_mem _ hv))
      (getValStep_lengthLaw range vi acc h1 (hfit vi (List.mem_cons_self vi rest)) hacc)

/-- C4 counterexample: the one-character lookback in the Projector breaks
the `to - from == length(str)` invariant: projecting `{3,6}` out of
`{from: 0, to: 10, str: "helloworld"}` emits `{from: 3, to: 6, str:
"llow"}` with `6 - 3 = 3 ≠ 4`; through `diffValidationInputs` the
emitted record `{from: 6, to: 10, str: "world"}` breaks it too. -/
theorem projector_length_invariant_fails :
    getValRangesFromRange ⟨3, 6⟩ [⟨0, 10, "helloworld".toList⟩] =
        [⟨3, 6, "llow".toList⟩] ∧
      (∃ out ∈ getValRangesFromRange ⟨3, 6⟩ [⟨0, 10, "helloworld".toList⟩],
        ¬(out.to - out.from = (out.str.length : Int))) ∧
      ∃ out ∈ diffValidationInputs 9 [⟨0, 10, "helloworld".toList⟩]
          [⟨3, 6, "lo".toList⟩],
        ¬(out.to - out.from = (out.str.length : Int)) := by decide

/-- C4 (amended): for a well-formed projected range that fits inside each
record it touches (touching being the source's selection guard
`range.from >= vi.from && range.from <= vi.from + vi.str.length`; records
the range does not touch are skipped and unconstrained), every record the
Projector emits has `length(str)` equal to `to - from` or to
`to - from + 1`; the extra character is the deliberate one-character
lookback taken when `range.from > vi.from`, so the exact invariant
`to - from == length(str)` does not survive it. -/
theorem getValRangesFromRange_length (range : Range) (vis : List ValidationInput)
    (h1 : range.from ≤ range.to)
    (h2 : ∀ vi ∈ vis, range.from ≥ vi.from →
      range.from ≤ vi.from + (vi.str.length : Int) →
      range.to ≤ vi.from + (vi.str.length : Int)) :
    ∀ out ∈ getValRangesFromRange range vis,
      out.to - out.from = (out.str.length : Int) ∨
        out.to - out.from + 1 = (out.str.length : Int) :=
  foldl_getValStep_lengthLaw range h1 vis [] h2 (by simp)

/-- C4 witness: projecting `{6,9}` over a two-record collection whose
first record `{0,2,"ab"}` lies wholly before the range (untouched, so
unconstrained by the fit hypothesis); the touched record `{5,10,"hello"}`
yields `{6,9,"hell"}` with the lookback character. -/
theorem getValRangesFromRange_length_witness :
    ((⟨6, 9⟩ : Range).from ≤ (⟨6, 9⟩ : Range).to) ∧
      (∀ vi ∈ [(⟨0, 2, "ab".toList⟩ : ValidationInput),
          ⟨5, 10, "hello".toList⟩],
        (⟨6, 9⟩ : Range).from ≥ vi.from →
        (⟨6, 9⟩ : Range).from ≤ vi.from + (vi.str.length : Int) →
        (⟨6, 9⟩ : Range).to ≤ vi.from + (vi.str.length : Int)) ∧
      ∀ out ∈ getValRangesFromRange ⟨6, 9⟩
          [⟨0, 2, "ab".toList⟩, ⟨5, 10, "hello".toList⟩],
        out.to - out.from = (out.str.length : Int) ∨
          out.to - out.from + 1 = (out.str.length : Int) :=
  ⟨by decide, by decide,
    getValRangesFromRange_length _ _ (by decide) (by decide)⟩

/-! ## Claims about the Range Algebra -/

/-- C1: false — `diffRanges` emits invalid ranges.  With first set
`[{5,10}]` and second `[{5,7}]` the partial-overlap branch emits the left
remainder `{from: 5, to: 5}` without the emptiness check (contradicting
the source's own "(ranges of 0 aren't valid)"), and with second `[{3,7}]`
it emits the inverted `{from: 5, to: 3}`. -/
theorem diffRanges_emits_invalid :
    diffRanges 5 [⟨5, 10⟩] [⟨5, 7⟩] = [⟨5, 5⟩, ⟨8, 10⟩] ∧
      diffRanges 5 [⟨5, 10⟩] [⟨3, 7⟩] = [⟨5, 3⟩, ⟨8, 10⟩] := by decide

/-- C2: false — `mergeRanges` is not idempotent.  Merging
`[{0,2},{5,7},{1,6}]` gives `[{0,6},{5,7}]` (the splice step does not
re-check the freshly merged entry against the rest of the accumulator),
and a second pass merges further to `[{0,7}]`. -/
theorem mergeRanges_not_idempotent :
    mergeRanges [⟨0, 2⟩, ⟨5, 7⟩, ⟨1, 6⟩] = [⟨0, 6⟩, ⟨5, 7⟩] ∧
      mergeRanges (mergeRanges [⟨0, 2⟩, ⟨5, 7⟩, ⟨1, 6⟩]) = [⟨0, 7⟩] ∧
      mergeRanges (mergeRanges [⟨0, 2⟩, ⟨5, 7⟩, ⟨1, 6⟩]) ≠
        mergeRanges [⟨0, 2⟩, ⟨5, 7⟩, ⟨1, 6⟩] := by decide

/-- C3: false — `mergeRanges` output can contain overlapping ranges: on
`[{0,2},{5,7},{1,6}]` it returns `[{0,6},{5,7}]`, and `{0,6}` overlaps
`{5,7}` per `findOverlappingRangeIndex`. -/
theorem mergeRanges_output_overlapping :
    mergeRanges [⟨0, 2⟩, ⟨5, 7⟩, ⟨1, 6⟩] = [⟨0, 6⟩, ⟨5, 7⟩] ∧
      findOverlappingRangeIndex ⟨0, 6⟩ [⟨5, 7⟩] = some 0 := by decide

/-! ### `mergeRanges` structure: every output range is an input range or a
well-formed hull covered point-by-point by the inputs.  This is the
invariant behind C7. -/

theorem overlaps_iff (l r : Range) :
    overlaps l r = true ↔
      ((l.from ≤ r.from ∧ l.to ≥ r.from) ∨ (l.to ≥ r.to ∧ l.from ≤ r.to) ∨
        (l.from ≥ r.from ∧ l.to ≤ r.to)) := by
  simp [overlaps]

theorem findIndexList_getD {α : Type} (p : α → Bool) (d : α) :
    ∀ (l : List α) (i : Nat), findIndexList p l = some i →
      l.getD i d ∈ l ∧ p (l.getD i d) = true := by
  intro l
  induction l with
  | nil => intro i h; simp [findIndexList] at h
  | cons x xs ih =>
    intro i h
    unfold findIndexList at h
    by_cases hx : p x = true
    · rw [if_pos hx] at h
      cases h
      simp [hx]
    · rw [if_neg hx] at h
      rcases Option.map_eq_some'.mp h with ⟨j, hj, hij⟩
      subst hij
      rcases ih j hj with ⟨hmem, hp⟩
      rw [List.getD_cons_succ]
      exact ⟨List.mem_cons_of_mem x hmem, hp⟩

theorem findIndexList_none_mem {α : Type} {p : α → Bool} :
    ∀ {l : List α}, findIndexList p l = none → ∀ x ∈ l, p x = false := by
  intro l
  induction l with
  | nil => intro _ x hx; simp at hx
  | cons y ys ih =>
    intro h x hx
    unfold findIndexList at h
    by_cases hy : p y = true
    · rw [if_pos hy] at h; simp at h
    · rw [if_neg hy] at h
      rcases List.mem_cons.mp hx with rfl | hx'
      · simpa using hy
      · exact ih (by simpa using h) x hx'

/-- An element of the merged set is either one of the input ranges, or a
well-formed range each of whose points lies in some input range. -/
def Covered (X : List Range) (e : Range) : Prop :=
  e ∈ X ∨ (e.from ≤ e.to ∧
    ∀ p : Int, e.from ≤ p → p ≤ e.to → ∃ x ∈ X, x.from ≤ p ∧ p ≤ x.to)

theorem range_eq_of (a b : Range) (hf : a.from = b.from) (ht : a.to = b.to) :
    a = b := by
  cases a; cases b; simp_all

theorem mergeRange_from_to (r l : Range) :
    (mergeRange r l).from = min r.from l.from ∧
      (mergeRange r l).to = max r.to l.to := by
  unfold mergeRange
  constructor <;> dsimp only <;> split_ifs <;> omega

theorem covered_mergeRange (X : List Range) (l r : Range)
    (hl : Covered X l) (hr : r ∈ X) (ho : overlaps l r = true) :
    Covered X (mergeRange r l) := by
  unfold Covered at hl ⊢
  rw [overlaps_iff] at ho
  rcases mergeRange_from_to r l with ⟨hmf, hmt⟩
  by_cases hrw : r.from ≤ r.to
  · by_cases hlw : l.from ≤ l.to
    · -- both well-formed: the hull is covered pointwise by l and r
      have hint : l.from ≤ r.to ∧ r.from ≤ l.to := by omega
      right
      refine ⟨by omega, ?_⟩
      intro p hp1 hp2
      by_cases hpl : l.from ≤ p ∧ p ≤ l.to
      · rcases hl with hl | ⟨_, hlc⟩
        · exact ⟨l, hl, hpl.1, hpl.2⟩
        · exact hlc p hpl.1 hpl.2
      · refine ⟨r, hr, ?_, ?_⟩ <;> omega
    · -- l inverted: the merge is exactly r
      have heq : mergeRange r l = r := range_eq_of _ _ (by omega) (by omega)
      rw [heq]; exact Or.inl hr
  · by_cases hlw : l.from ≤ l.to
    · -- r inverted, l well-formed: the merge is exactly l
      have heq : mergeRange r l = l := range_eq_of _ _ (by omega) (by omega)
      rw [heq]; exact hl
    · -- both inverted: the merge is exactly r
      have heq : mergeRange r l = r := range_eq_of _ _ (by omega) (by omega)
      rw [heq]; exact Or.inl hr

theorem mergeStep_covered (X : List Range) (acc : List Range) (range : Range)
    (hacc : ∀ e ∈ acc, Covered X e) (hrange : range ∈ X) :
    ∀ e ∈ mergeStep acc range, Covered X e := by
  intro e he
  unfold mergeStep at he
  split at he
  · rcases List.mem_append.mp he with h | h
    · exact hacc e h
    · rw [List.mem_singleton] at h; subst h; exact Or.inl hrange
  · next index hidx =>
    rcases List.mem_or_eq_of_mem_set he with h | h
    · exact hacc e h
    · subst h
      have hspec := findIndexList_getD (fun localRange => overlaps localRange range)
        (⟨0, 0⟩ : Range) acc index hidx
      exact covered_mergeRange X (acc.getD index ⟨0, 0⟩) range
        (hacc _ hspec.1) hrange hspec.2

theorem foldl_mergeStep_covered (X : List Range) :
    ∀ (l acc : List Range), (∀ x ∈ l, x ∈ X) → (∀ e ∈ acc, Covered X e) →
      ∀ e ∈ l.foldl mergeStep acc, Covered X e := by
  intro l
  induction l with
  | nil => intro acc _ hacc; simpa using hacc
  | cons x xs ih =>
    intro acc hmem hacc
    simp only [List.foldl_cons]
    exact ih _ (fun y hy => hmem y (List.mem_cons_of_mem _ hy))
      (mergeStep_covered X acc x hacc (hmem x (List.mem_cons_self x xs)))

theorem mergeRanges_covered (X : List Range) : ∀ e ∈ mergeRanges X, Covered X e :=
  foldl_mergeStep_covered X X [] (fun x hx => hx) (by simp)

/-- If two ranges derived from A and B overlap, some original pair from A
and B already overlapped. -/
theorem exists_overlap_of_covered (A B : List Range) (r l : Range)
    (hr : Covered A r) (hl : Covered B l) (ho : overlaps l r = true) :
    ∃ a ∈ A, ∃ b ∈ B, overlaps b a = true := by
  unfold Covered at hr hl
  rw [overlaps_iff] at ho
  rcases hr with hr | ⟨hrw, hrc⟩ <;> rcases hl with hl | ⟨hlw, hlc⟩
  · exact ⟨r, hr, l, hl, by rw [overlaps_iff]; exact ho⟩
  · rcases ho with ⟨h1, h2⟩ | ⟨h1, h2⟩ | ⟨h1, h2⟩
    · rcases hlc r.from h1 h2 with ⟨b, hb, hb1, hb2⟩
      exact ⟨r, hr, b, hb, by rw [overlaps_iff]; omega⟩
    · rcases hlc r.to h2 h1 with ⟨b, hb, hb1, hb2⟩
      exact ⟨r, hr, b, hb, by rw [overlaps_iff]; omega⟩
    · rcases hlc l.from le_rfl hlw with ⟨b, hb, hb1, hb2⟩
      exact ⟨r, hr, b, hb, by rw [overlaps_iff]; omega⟩
  · rcases ho with ⟨h1, h2⟩ | ⟨h1, h2⟩ | ⟨h1, h2⟩
    · rcases hrc r.from le_rfl hrw with ⟨a, ha, ha1, ha2⟩
      exact ⟨a, ha, l, hl, by rw [overlaps_iff]; omega⟩
    · rcases hrc r.to hrw le_rfl with ⟨a, ha, ha1, ha2⟩
      exact ⟨a, ha, l, hl, by rw [overlaps_iff]; omega⟩
    · rcases le_or_lt l.from l.to with hlw | hlw
      · rcases hrc l.from (by omega) (by omega) with ⟨a, ha, ha1, ha2⟩
        exact ⟨a, ha, l, hl, by rw [overlaps_iff]; omega⟩
      · rcases hrc (max l.to r.from) (by omega) (by omega) with ⟨a, ha, ha1, ha2⟩
        exact ⟨a, ha, l, hl, by rw [overlaps_iff]; omega⟩
  · rcases ho with ⟨h1, h2⟩ | ⟨h1, h2⟩ | ⟨h1, h2⟩
    · rcases hlc r.from h1 h2 with ⟨b, hb, hb1, hb2⟩
      rcases hrc r.from le_rfl hrw with ⟨a, ha, ha1, ha2⟩
      exact ⟨a, ha, b, hb, by rw [overlaps_iff]; omega⟩
    · rcases hlc r.to h2 h1 with ⟨b, hb, hb1, hb2⟩
      rcases hrc r.to hrw le_rfl with ⟨a, ha, ha1, ha2⟩
      exact ⟨a, ha, b, hb, by rw [overlaps_iff]; omega⟩
    · rcases hlc l.from le_rfl hlw with ⟨b, hb, hb1, hb2⟩
      rcases hrc l.from (by omega) (by omega) with ⟨a, ha, ha1, ha2⟩
      exact ⟨a, ha, b, hb, by rw [overlaps_iff]; omega⟩

/-- Merging preserves pairwise disjointness between the two sets. -/
theorem merged_no_overlap (A B : List Range)
    (H : ∀ a ∈ A, findOverlappingRangeIndex a B = none) :
    ∀ r ∈ mergeRanges A, findOverlappingRangeIndex r (mergeRanges B) = none := by
  intro r hr
  have Hp : ∀ a ∈ A, ∀ b ∈ B, overlaps b a = false := by
    intro a ha b hb
    exact findIndexList_none_mem (H a ha) b hb
  apply findIndexList_eq_none
  intro l hl
  by_contra hcon
  have ho : overlaps l r = true := by
    cases hval : overlaps l r
    · exact absurd hval hcon
    · rfl
  rcases exists_overlap_of_covered A B r l (mergeRanges_covered A r hr)
    (mergeRanges_covered B l hl) ho with ⟨a, ha, b, hb, hab⟩
  rw [Hp a ha b hb] at hab
  exact Bool.false_ne_true hab

theorem foldl_diffStep_of_none (inner : Range → List Range) (sm : List Range) :
    ∀ (l acc : List Range),
      (∀ r ∈ l, findOverlappingRangeIndex r sm = none) →
      l.foldl (diffStep inner sm) acc = acc ++ l := by
  intro l
  induction l with
  | nil => intro acc _; simp
  | cons x xs ih =>
    intro acc hnone
    have hx : findOverlappingRangeIndex x sm = none :=
      hnone x (List.mem_cons_self x xs)
    have hstep : diffStep inner sm acc x = acc ++ [x] := by
      unfold diffStep; rw [hx]
    simp only [List.foldl_cons, hstep]
    rw [ih _ (fun s hs => hnone s (List.mem_cons_of_mem _ hs))]
    simp

/-- C7: when no range of A overlaps any range of B (per
`findOverlappingRangeIndex`), the diff keeps every merged first-set range
whole, so `diffRanges A B = mergeRanges A`, for every fuel value (the
recursive split is never taken). -/
theorem diffRanges_disjoint (fuel : Nat) (A B : List Range)
    (H : ∀ a ∈ A, findOverlappingRangeIndex a B = none) :
    diffRanges fuel A B = mergeRanges A := by
  have key := merged_no_overlap A B H
  cases fuel with
  | zero =>
    show (mergeRanges A).foldl (diffStep (fun _ => []) (mergeRanges B)) [] =
      mergeRanges A
    rw [foldl_diffStep_of_none _ _ _ _ key]
    simp
  | succ n =>
    show (mergeRanges A).foldl
        (diffStep (fun newRange => diffRanges n [newRange] (mergeRanges B))
          (mergeRanges B)) [] = mergeRanges A
    rw [foldl_diffStep_of_none _ _ _ _ key]
    simp

/-- C7 witness: `A = [{0,1}]`, `B = [{5,6}]` are disjoint. -/
theorem diffRanges_disjoint_witness :
    (∀ a ∈ [(⟨0, 1⟩ : Range)], findOverlappingRangeIndex a [⟨5, 6⟩] = none) ∧
      diffRanges 3 [⟨0, 1⟩] [⟨5, 6⟩] = mergeRanges [⟨0, 1⟩] :=
  ⟨by decide, diffRanges_disjoint 3 _ _ (by decide)⟩

/-- C6: false — `diffRanges(R, R)` need not be empty: for
`R = [{0,2},{5,7},{1,6}]` the merged sets still overlap internally and
the diff produces the (inverted) leftovers `[{5,0},{7,0}]`. -/
theorem diffRanges_self_not_empty :
    diffRanges 5 [⟨0, 2⟩, ⟨5, 7⟩, ⟨1, 6⟩] [⟨0, 2⟩, ⟨5, 7⟩, ⟨1, 6⟩] =
        [⟨5, 0⟩, ⟨7, 0⟩] ∧
      diffRanges 5 [⟨0, 2⟩, ⟨5, 7⟩, ⟨1, 6⟩] [⟨0, 2⟩, ⟨5, 7⟩, ⟨1, 6⟩] ≠ [] := by decide

end Noting
